import Mathlib

/-!
Verification of the simstring frontend (src/frontend/main.cpp) and of the
engine interface it drives.  The repository ships only the CLI frontend; the
engine (n-gram generator, writer, reader and query types of
simstring/simstring.h) is declared but not present, so those parts are
modelled from the specification, as marked in the doc comments.  The engine
is templated over the character type in C++ (std::string / std::wstring), so
the model is parameterised by an arbitrary code-unit type with decidable
equality.
-/

set_option autoImplicit false
set_option linter.unusedSectionVars false
set_option linter.unusedVariables false

namespace Simstring

variable {α : Type} [DecidableEq α]

/-- Similarity coefficients selectable with the -s option
(main.cpp, enum QT_EXACT .. QT_OVERLAP). -/
inductive Coeff where
  | exact
  | dice
  | cosine
  | jaccard
  | overlap
deriving DecidableEq

/-- The list of all windows (contiguous sublists) of length n of a list,
left to right.  For n ≥ 1 there are `l.length + 1 - n` of them. -/
def windows (n : ℕ) : List α → List (List α)
  | [] => []
  | a :: l => if (a :: l).length < n then [] else (a :: l).take n :: windows n l

/-- Modelled from the spec: the n-gram generator (simstring.h, not under
src/).  §3/§4.1: boundary markers are prepended and appended so that a string
of length L yields L + n - 1 n-grams; n - 1 markers on each side give exactly
that count.  Markers are distinct from every code unit, so they are modelled
as `none` over the alphabet `Option α`.  The result is a multiset: order is
irrelevant, multiplicity is kept. -/
def ngrams (n : ℕ) (s : List α) : Multiset (List (Option α)) :=
  (windows n (List.replicate (n - 1) none ++ s.map some ++ List.replicate (n - 1) none) : List (List (Option α)))

/-- Modelled from the spec: `overlap` of §4.2, the cardinality of the
multiset intersection (min per distinct n-gram) of the two n-gram
multisets. -/
def overlapCount (n : ℕ) (q x : List α) : ℕ :=
  Multiset.card (ngrams n q ∩ ngrams n x)

/-- Modelled from the spec: the per-coefficient test `score ≥ t` of §4.2,
with `qc = |Q|`, `xc = |X|`, `o = overlap`.  Fractions are stated with
denominators cleared, which is equivalent for t ≥ 0 whenever the denominator
is positive; the positivity conjunct records that the score is defined (a
0/0 score compares as false, as a NaN does).  Cosine is squared, equivalent
for t ≥ 0.  Overlap uses the normalisation `overlap / min(|Q|,|X|)`, the
first alternative of §4.2, held consistent with `inRange` below (§9). -/
def scoreGe (c : Coeff) (qc xc o : ℕ) (t : ℚ) : Bool :=
  match c with
  | .exact => qc == xc && o == qc
  | .dice => decide (0 < qc + xc) && decide (t * ((qc : ℚ) + (xc : ℚ)) ≤ 2 * (o : ℚ))
  | .cosine => decide (0 < qc) && decide (0 < xc) && decide (t ^ 2 * ((qc : ℚ) * (xc : ℚ)) ≤ (o : ℚ) ^ 2)
  | .jaccard => decide (0 < qc + xc) && decide (t * ((qc : ℚ) + (xc : ℚ) - (o : ℚ)) ≤ (o : ℚ))
  | .overlap => decide (0 < min qc xc) && decide (t * ((min qc xc : ℕ) : ℚ) ≤ (o : ℚ))

/-- Modelled from the spec: membership of `xc = |X|` in
`feasible_length_range(|Q|, t)` of §4.4, obtained by solving `score ≥ t` at
`overlap = min(|Q|,|X|)`.  For 0 < t ≤ 1 the divisors t and 2 - t are
positive, so `lmin ≤ xc ≤ lmax` is equivalent to the cleared inequalities
below (for a natural xc, `⌈a⌉ ≤ xc ↔ a ≤ xc` and `xc ≤ ⌊b⌋ ↔ xc ≤ b`).
For the overlap coefficient the maximal overlap gives score 1 ≥ t, so every
length is feasible; for exact, §4.5 step 2 makes the range the single value
`|Q|`. -/
def inRange (c : Coeff) (t : ℚ) (qc xc : ℕ) : Bool :=
  match c with
  | .exact => xc == qc
  | .dice => decide (t * (qc : ℚ) ≤ (2 - t) * (xc : ℚ)) && decide (t * (xc : ℚ) ≤ (2 - t) * (qc : ℚ))
  | .cosine => decide (t ^ 2 * (qc : ℚ) ≤ (xc : ℚ)) && decide (t ^ 2 * (xc : ℚ) ≤ (qc : ℚ))
  | .jaccard => decide (t * (qc : ℚ) ≤ (xc : ℚ)) && decide (t * (xc : ℚ) ≤ (qc : ℚ))
  | .overlap => true

/-- Modelled from the spec: the retrieval contract of §4.5.  A finalized
database is the list of inserted strings (§4.3: duplicates are kept as
separate entries).  Retrieval keeps the strings whose length-group lies in
`feasible_length_range` (steps 2-3) and whose exact score is at least the
threshold (step 3c). -/
def retrieve (c : Coeff) (n : ℕ) (t : ℚ) (q : List α) (db : List (List α)) : List (List α) :=
  db.filter (fun x =>
    inRange c t (Multiset.card (ngrams n q)) (Multiset.card (ngrams n x)) &&
    scoreGe c (Multiset.card (ngrams n q)) (Multiset.card (ngrams n x)) (overlapCount n q x) t)

theorem windows_length (n : ℕ) (hn : 1 ≤ n) :
    ∀ l : List α, (windows n l).length = l.length + 1 - n := by
  intro l
  induction l with
  | nil => simp [windows]; omega
  | cons a l ih =>
    rw [windows]
    simp only [List.length_cons]
    by_cases h : l.length + 1 < n
    · rw [if_pos h]
      simp
      omega
    · rw [if_neg h]
      simp only [List.length_cons, ih]
      omega

theorem ngrams_card_eq (n : ℕ) (hn : 1 ≤ n) (s : List α) :
    Multiset.card (ngrams n s) = s.length + n - 1 := by
  rw [ngrams]
  rw [Multiset.coe_card, windows_length n hn]
  simp
  omega

theorem overlapCount_le_left (n : ℕ) (q x : List α) :
    overlapCount n q x ≤ Multiset.card (ngrams n q) :=
  Multiset.card_le_card (Multiset.inter_le_left _ _)

theorem overlapCount_le_right (n : ℕ) (q x : List α) :
    overlapCount n q x ≤ Multiset.card (ngrams n x) :=
  Multiset.card_le_card (Multiset.inter_le_right _ _)

theorem inter_self_eq (s : Multiset (List (Option α))) : s ∩ s = s :=
  le_antisymm (Multiset.inter_le_left _ _) (Multiset.le_inter le_rfl le_rfl)

theorem scoreGe_le_inRange (c : Coeff) (qc xc o : ℕ) (t : ℚ)
    (ht0 : 0 < t) (hoq : o ≤ qc) (hox : o ≤ xc)
    (hs : scoreGe c qc xc o t = true) : inRange c t qc xc = true := by
  have hq : (o : ℚ) ≤ (qc : ℚ) := by exact_mod_cast hoq
  have hx : (o : ℚ) ≤ (xc : ℚ) := by exact_mod_cast hox
  have ho0 : (0 : ℚ) ≤ (o : ℚ) := by positivity
  cases c with
  | exact =>
    simp only [scoreGe, Bool.and_eq_true, beq_iff_eq] at hs
    simp only [inRange, beq_iff_eq]
    exact hs.1.symm
  | dice =>
    simp only [scoreGe, Bool.and_eq_true, decide_eq_true_eq] at hs
    obtain ⟨hpos, hle⟩ := hs
    simp only [inRange, Bool.and_eq_true, decide_eq_true_eq]
    constructor
    · linarith
    · linarith
  | cosine =>
    simp only [scoreGe, Bool.and_eq_true, decide_eq_true_eq] at hs
    obtain ⟨⟨hq0, hx0⟩, hle⟩ := hs
    have hqQ : (0 : ℚ) < (qc : ℚ) := by exact_mod_cast hq0
    have hxQ : (0 : ℚ) < (xc : ℚ) := by exact_mod_cast hx0
    have ho2x : (o : ℚ) ^ 2 ≤ (xc : ℚ) ^ 2 := pow_le_pow_left₀ ho0 hx 2
    have ho2q : (o : ℚ) ^ 2 ≤ (qc : ℚ) ^ 2 := pow_le_pow_left₀ ho0 hq 2
    simp only [inRange, Bool.and_eq_true, decide_eq_true_eq]
    constructor
    · exact le_of_mul_le_mul_right (by linarith [hle, ho2x]) hxQ
    · exact le_of_mul_le_mul_right (by linarith [hle, ho2q]) hqQ
  | jaccard =>
    simp only [scoreGe, Bool.and_eq_true, decide_eq_true_eq] at hs
    obtain ⟨hpos, hle⟩ := hs
    have h2x : (0 : ℚ) ≤ t * ((xc : ℚ) - o) := mul_nonneg ht0.le (by linarith)
    have h2q : (0 : ℚ) ≤ t * ((qc : ℚ) - o) := mul_nonneg ht0.le (by linarith)
    simp only [inRange, Bool.and_eq_true, decide_eq_true_eq]
    constructor
    · nlinarith [hle, h2x, hx]
    · nlinarith [hle, h2q, hq]
  | overlap => rfl

/-- C1: for every query string, every coefficient, and every positive
threshold, every string whose similarity score against the query is at least
the threshold has an n-gram-multiset cardinality inside
`feasible_length_range(|Q|, threshold)`: length-group pruning never excludes
a true match. -/
theorem feasible_range_sound (c : Coeff) (n : ℕ) (t : ℚ) (q x : List α)
    (ht0 : 0 < t)
    (hs : scoreGe c (Multiset.card (ngrams n q)) (Multiset.card (ngrams n x))
      (overlapCount n q x) t = true) :
    inRange c t (Multiset.card (ngrams n q)) (Multiset.card (ngrams n x)) = true :=
  scoreGe_le_inRange c _ _ _ t ht0 (overlapCount_le_left n q x)
    (overlapCount_le_right n q x) hs

/-- Witness for C1 at coefficient dice, n = 2, a one-character query,
a two-character candidate sharing one bigram, threshold 2/5 (over the
code-unit alphabet ℕ). -/
theorem feasible_range_sound_witness :
    0 < (2 : ℚ) / 5 ∧
      scoreGe Coeff.dice (Multiset.card (ngrams 2 [(1 : ℕ)]))
        (Multiset.card (ngrams 2 [(1 : ℕ), 2])) (overlapCount 2 [(1 : ℕ)] [1, 2])
        ((2 : ℚ) / 5) = true ∧
      inRange Coeff.dice ((2 : ℚ) / 5) (Multiset.card (ngrams 2 [(1 : ℕ)]))
        (Multiset.card (ngrams 2 [(1 : ℕ), 2])) = true :=
  ⟨by with_unfolding_all decide, by with_unfolding_all decide,
    feasible_range_sound Coeff.dice 2 ((2 : ℚ) / 5) [1] [1, 2]
      (by with_unfolding_all decide) (by with_unfolding_all decide)⟩

theorem scoreGe_antitone (c : Coeff) (qc xc o : ℕ) (t1 t2 : ℚ)
    (h0 : 0 ≤ t2) (h12 : t2 ≤ t1) (hoq : o ≤ qc)
    (hs : scoreGe c qc xc o t1 = true) : scoreGe c qc xc o t2 = true := by
  have hq : (o : ℚ) ≤ (qc : ℚ) := by exact_mod_cast hoq
  have hxnn : (0 : ℚ) ≤ (xc : ℚ) := by positivity
  cases c with
  | exact => exact hs
  | dice =>
    simp only [scoreGe, Bool.and_eq_true, decide_eq_true_eq] at hs ⊢
    obtain ⟨hpos, hle⟩ := hs
    refine ⟨hpos, ?_⟩
    have step : t2 * ((qc : ℚ) + xc) ≤ t1 * ((qc : ℚ) + xc) :=
      mul_le_mul_of_nonneg_right h12 (by positivity)
    linarith
  | cosine =>
    simp only [scoreGe, Bool.and_eq_true, decide_eq_true_eq] at hs ⊢
    obtain ⟨⟨hq0, hx0⟩, hle⟩ := hs
    refine ⟨⟨hq0, hx0⟩, ?_⟩
    have h2 : t2 ^ 2 ≤ t1 ^ 2 := pow_le_pow_left₀ h0 h12 2
    have step : t2 ^ 2 * ((qc : ℚ) * xc) ≤ t1 ^ 2 * ((qc : ℚ) * xc) :=
      mul_le_mul_of_nonneg_right h2 (by positivity)
    linarith
  | jaccard =>
    simp only [scoreGe, Bool.and_eq_true, decide_eq_true_eq] at hs ⊢
    obtain ⟨hpos, hle⟩ := hs
    refine ⟨hpos, ?_⟩
    have hnn : (0 : ℚ) ≤ (qc : ℚ) + xc - o := by linarith
    have step : t2 * ((qc : ℚ) + xc - o) ≤ t1 * ((qc : ℚ) + xc - o) :=
      mul_le_mul_of_nonneg_right h12 hnn
    linarith
  | overlap =>
    simp only [scoreGe, Bool.and_eq_true, decide_eq_true_eq] at hs ⊢
    obtain ⟨hpos, hle⟩ := hs
    refine ⟨hpos, ?_⟩
    have step : t2 * (((min qc xc : ℕ) : ℚ)) ≤ t1 * (((min qc xc : ℕ) : ℚ)) :=
      mul_le_mul_of_nonneg_right h12 (by positivity)
    linarith

theorem inRange_antitone (c : Coeff) (qc xc : ℕ) (t1 t2 : ℚ)
    (h0 : 0 ≤ t2) (h12 : t2 ≤ t1)
    (hr : inRange c t1 qc xc = true) : inRange c t2 qc xc = true := by
  have hqnn : (0 : ℚ) ≤ (qc : ℚ) := by positivity
  have hxnn : (0 : ℚ) ≤ (xc : ℚ) := by positivity
  cases c with
  | exact => exact hr
  | dice =>
    simp only [inRange, Bool.and_eq_true, decide_eq_true_eq] at hr ⊢
    obtain ⟨h1, h2⟩ := hr
    constructor
    · have a1 : t2 * (qc : ℚ) ≤ t1 * qc := mul_le_mul_of_nonneg_right h12 hqnn
      have a2 : (2 - t1) * (xc : ℚ) ≤ (2 - t2) * xc :=
        mul_le_mul_of_nonneg_right (by linarith) hxnn
      linarith
    · have a1 : t2 * (xc : ℚ) ≤ t1 * xc := mul_le_mul_of_nonneg_right h12 hxnn
      have a2 : (2 - t1) * (qc : ℚ) ≤ (2 - t2) * qc :=
        mul_le_mul_of_nonneg_right (by linarith) hqnn
      linarith
  | cosine =>
    simp only [inRange, Bool.and_eq_true, decide_eq_true_eq] at hr ⊢
    obtain ⟨h1, h2⟩ := hr
    have hp : t2 ^ 2 ≤ t1 ^ 2 := pow_le_pow_left₀ h0 h12 2
    constructor
    · have a1 : t2 ^ 2 * (qc : ℚ) ≤ t1 ^ 2 * qc := mul_le_mul_of_nonneg_right hp hqnn
      linarith
    · have a1 : t2 ^ 2 * (xc : ℚ) ≤ t1 ^ 2 * xc := mul_le_mul_of_nonneg_right hp hxnn
      linarith
  | jaccard =>
    simp only [inRange, Bool.and_eq_true, decide_eq_true_eq] at hr ⊢
    obtain ⟨h1, h2⟩ := hr
    constructor
    · have a1 : t2 * (qc : ℚ) ≤ t1 * qc := mul_le_mul_of_nonneg_right h12 hqnn
      linarith
    · have a1 : t2 * (xc : ℚ) ≤ t1 * xc := mul_le_mul_of_nonneg_right h12 hxnn
      linarith
  | overlap => rfl

/-- C3: for every finalized database, query string and coefficient, and
thresholds 0 ≤ t2 ≤ t1, the result set retrieved at the higher threshold t1
is a subset of the result set retrieved at the lower threshold t2: result
sets are monotonically non-increasing in the threshold. -/
theorem retrieve_threshold_antitone (c : Coeff) (n : ℕ) (t1 t2 : ℚ)
    (q : List α) (db : List (List α)) (h0 : 0 ≤ t2) (h12 : t2 ≤ t1) :
    retrieve c n t1 q db ⊆ retrieve c n t2 q db := by
  intro x hx
  rw [retrieve, List.mem_filter] at hx ⊢
  rcases hx with ⟨hmem, hp⟩
  rw [Bool.and_eq_true] at hp
  refine ⟨hmem, ?_⟩
  rw [Bool.and_eq_true]
  exact ⟨inRange_antitone c _ _ t1 t2 h0 h12 hp.1,
    scoreGe_antitone c _ _ _ t1 t2 h0 h12 (overlapCount_le_left n q x) hp.2⟩

/-- Witness for C3 at coefficient dice, n = 2, thresholds 2/5 ≤ 4/5, a
one-element database matching the query. -/
theorem retrieve_threshold_antitone_witness :
    0 ≤ (2 : ℚ) / 5 ∧ (2 : ℚ) / 5 ≤ 4 / 5 ∧
      retrieve Coeff.dice 2 ((4 : ℚ) / 5) [(1 : ℕ)] [[1]] ⊆
        retrieve Coeff.dice 2 ((2 : ℚ) / 5) [(1 : ℕ)] [[1]] :=
  ⟨by with_unfolding_all decide, by with_unfolding_all decide,
    retrieve_threshold_antitone Coeff.dice 2 ((4 : ℚ) / 5) ((2 : ℚ) / 5) [1] [[1]]
      (by with_unfolding_all decide) (by with_unfolding_all decide)⟩

theorem count_filter_pos {β : Type} [BEq β] [LawfulBEq β] {p : β → Bool} {a : β}
    (h : p a = true) (l : List β) : (l.filter p).count a = l.count a := by
  induction l with
  | nil => rfl
  | cons b l ih =>
    rw [List.filter_cons]
    by_cases hb : p b = true
    · simp only [if_pos hb, List.count_cons, ih]
    · have hba : (b == a) = false := by
        have : ¬b = a := fun he => hb (he ▸ h)
        simpa using this
      simp only [if_neg hb, List.count_cons, ih, hba]
      simp

/-- C2: every string s present in the database (inserted once or several
times, among any other insertions) is retrieved by an exact-coefficient
query for s, once per insertion: the result contains at least one copy of s
and duplicate insertions yield duplicate matches. -/
theorem exact_roundtrip (n : ℕ) (t : ℚ) (s : List α) (db : List (List α))
    (h : s ∈ db) :
    s ∈ retrieve Coeff.exact n t s db ∧
      (retrieve Coeff.exact n t s db).count s = db.count s := by
  have hp : (inRange Coeff.exact t (Multiset.card (ngrams n s)) (Multiset.card (ngrams n s)) &&
      scoreGe Coeff.exact (Multiset.card (ngrams n s)) (Multiset.card (ngrams n s))
        (overlapCount n s s) t) = true := by
    simp [inRange, scoreGe, overlapCount, inter_self_eq]
  exact ⟨List.mem_filter.2 ⟨h, hp⟩,
    @count_filter_pos _ _ _
      (fun x => inRange Coeff.exact t (Multiset.card (ngrams n s)) (Multiset.card (ngrams n x)) &&
        scoreGe Coeff.exact (Multiset.card (ngrams n s)) (Multiset.card (ngrams n x))
          (overlapCount n s x) t) s hp db⟩

/-- Witness for C2: a two-string database holding the query. -/
theorem exact_roundtrip_witness :
    [(1 : ℕ)] ∈ [[(1 : ℕ)], [2]] ∧
      ([(1 : ℕ)] ∈ retrieve Coeff.exact 3 ((7 : ℚ) / 10) [(1 : ℕ)] [[1], [2]] ∧
        (retrieve Coeff.exact 3 ((7 : ℚ) / 10) [(1 : ℕ)] [[1], [2]]).count [1] =
          ([[(1 : ℕ)], [2]] : List (List ℕ)).count [1]) :=
  ⟨by decide, exact_roundtrip 3 ((7 : ℚ) / 10) [1] [[1], [2]] (by decide)⟩

theorem exact_pred_iff (n : ℕ) (t : ℚ) (q x : List α) :
    (inRange Coeff.exact t (Multiset.card (ngrams n q)) (Multiset.card (ngrams n x)) &&
      scoreGe Coeff.exact (Multiset.card (ngrams n q)) (Multiset.card (ngrams n x))
        (overlapCount n q x) t) = true ↔ ngrams n x = ngrams n q := by
  simp only [inRange, scoreGe, overlapCount, Bool.and_eq_true, beq_iff_eq]
  constructor
  · rintro ⟨hxq, hqx, ho⟩
    have h1 : ngrams n q ∩ ngrams n x = ngrams n q :=
      Multiset.eq_of_le_of_card_le (Multiset.inter_le_left _ _) (le_of_eq ho.symm)
    have h2 : ngrams n q ≤ ngrams n x := by
      rw [← h1]; exact Multiset.inter_le_right _ _
    exact (Multiset.eq_of_le_of_card_le h2 (le_of_eq hxq)).symm
  · intro he
    rw [he]
    simp [inter_self_eq]

/-- C4: retrieval with the exact coefficient ignores the threshold, and the
result set is exactly the indexed true duplicates of the query, i.e. the
entries whose n-gram multiset equals the query's (the strings of exact
score 1 per the score formula). -/
theorem exact_ignores_threshold (n : ℕ) (t1 t2 : ℚ) (q : List α)
    (db : List (List α)) :
    retrieve Coeff.exact n t1 q db = retrieve Coeff.exact n t2 q db ∧
      retrieve Coeff.exact n t1 q db =
        db.filter (fun x => ngrams n x == ngrams n q) := by
  refine ⟨rfl, ?_⟩
  rw [retrieve]
  refine List.filter_congr ?_
  intro x _
  by_cases hx : ngrams n x = ngrams n q
  · rw [(exact_pred_iff n t1 q x).2 hx]
    simp [hx]
  · have h1 : (inRange Coeff.exact t1 (Multiset.card (ngrams n q)) (Multiset.card (ngrams n x)) &&
        scoreGe Coeff.exact (Multiset.card (ngrams n q)) (Multiset.card (ngrams n x))
          (overlapCount n q x) t1) = false := by
      rw [Bool.eq_false_iff]
      intro hc
      exact hx ((exact_pred_iff n t1 q x).1 hc)
    rw [h1]
    simp [hx]

/-- Processing modes of the frontend (main.cpp, MODE_INTERACTIVE,
MODE_BUILD, MODE_HELP). -/
inductive Mode where
  | interactive
  | build
  | help
deriving DecidableEq

/-- Character granularities of the frontend (main.cpp, CC_CHAR and
CC_WCHAR). -/
inductive CharCode where
  | cchar
  | cwchar
deriving DecidableEq

/-- The frontend's option record (main.cpp, class option).  The query-type
enum QT_EXACT .. QT_OVERLAP corresponds one-to-one to `Coeff`; the double
threshold is modelled as a rational and the int ngram_size as an
integer. -/
structure option where
  mode : Mode
  code : CharCode
  name : String
  ngram_size : ℤ
  query_type : Coeff
  threshold : ℚ
deriving DecidableEq

/-- The default-constructed option record (main.cpp lines 43-51). -/
def option.init : option :=
  { mode := Mode.interactive
    code := CharCode.cchar
    name := ""
    ngram_size := 3
    query_type := Coeff.exact
    threshold := 7 / 10 }

/-- One recognised command-line option together with its argument, as
dispatched by optparse to the handlers of BEGIN_OPTION_MAP_INLINE in
main.cpp lines 58-94.  The numeric conversions done by std::atof and
std::atoi are modelled by the constructors carrying the converted value. -/
inductive Arg where
  | build
  | database (s : String)
  | chartype (s : String)
  | similarity (s : String)
  | threshold (v : ℚ)
  | ngram (v : ℤ)
  | help
deriving DecidableEq

/-- One handler step of the option map (main.cpp lines 58-94): the chartype
handler throws invalid_value on an unknown argument (lines 65-70); the
similarity handler's if/else-if chain has no final else (lines 72-83), so an
unrecognised name leaves query_type unchanged; the ngram handler stores the
converted value without any validation (lines 88-89). -/
def applyOption (o : option) (a : Arg) : Except String option :=
  match a with
  | .build => .ok { o with mode := Mode.build }
  | .database s => .ok { o with name := s }
  | .chartype s =>
      if s = "wchar" then .ok { o with code := CharCode.cwchar }
      else .error ("unknown character type: " ++ s)
  | .similarity s =>
      if s = "exact" then .ok { o with query_type := Coeff.exact }
      else if s = "dice" then .ok { o with query_type := Coeff.dice }
      else if s = "cosine" then .ok { o with query_type := Coeff.cosine }
      else if s = "jaccard" then .ok { o with query_type := Coeff.jaccard }
      else if s = "overlap" then .ok { o with query_type := Coeff.overlap }
      else .ok o
  | .threshold v => .ok { o with threshold := v }
  | .ngram v => .ok { o with ngram_size := v }
  | .help => .ok { o with mode := Mode.help }

/-- Parsing a command line: the handlers are applied left to right starting
from the default-constructed record (main.cpp line 267, opt.parse). -/
def parseOptions (args : List Arg) : Except String option :=
  args.foldlM applyOption option.init

/-- C9: when no configuration options are supplied, parsing yields the
default-constructed record, whose n-gram length is 3 and whose similarity
threshold is 0.7. -/
theorem default_options :
    parseOptions [] = Except.ok option.init ∧
      option.init.ngram_size = 3 ∧ option.init.threshold = 7 / 10 :=
  ⟨rfl, rfl, rfl⟩

/-- C5: an unknown value for the -s (--similarity) option is not reported
as an error.  The
similarity handler's if/else-if chain has no else branch (main.cpp lines
72-83), so parsing "-s dice -s banana" succeeds and proceeds with the
previously set coefficient dice. -/
theorem similarity_unknown_not_reported :
    parseOptions [Arg.similarity "dice", Arg.similarity "banana"] =
      Except.ok { option.init with query_type := Coeff.dice } := rfl

/-- C7 counterexample: parsing "-n 0" succeeds: the value 0 is stored in
ngram_size and no error is reported at configuration time. -/
theorem ngram_zero_accepted :
    parseOptions [Arg.ngram 0] =
      Except.ok { option.init with ngram_size := 0 } := rfl

/-- C7 amended: the -n (--ngram) handler performs no validation (main.cpp
lines 88-89): every integer value, non-positive ones included, is accepted
at configuration time and stored for the n-gram generator. -/
theorem ngram_size_unvalidated (v : ℤ) :
    parseOptions [Arg.ngram v] =
      Except.ok { option.init with ngram_size := v } := rfl

/-- std::getline on the remaining stream content (build loop line 134,
interactive loop line 194): characters up to the first delimiter are
returned as the line and the delimiter is consumed; the returned flag is the
eof bit, set exactly when the stream ends before a delimiter is found. -/
def getline (nl : α) : List α → List α × List α × Bool
  | [] => ([], [], true)
  | c :: r =>
      if c = nl then ([], r, false)
      else (c :: (getline nl r).1, (getline nl r).2)

theorem getline_rest_length (nl : α) (s : List α)
    (h : (getline nl s).2.2 = false) : (getline nl s).2.1.length < s.length := by
  induction s with
  | nil => simp [getline] at h
  | cons c r ih =>
    by_cases hc : c = nl
    · simp [getline, hc]
    · simp only [getline, if_neg hc] at h ⊢
      exact Nat.lt_succ_of_lt (ih h)

/-- The read loop shared by build (main.cpp lines 131-150) and interactive
(lines 191-198): read a line; if the eof bit is set, break — discarding the
just-read partial line — otherwise process the line and continue.  Returns
the processed lines in order. -/
def processLines (nl : α) (s : List α) : List (List α) :=
  if h : (getline nl s).2.2 = true then []
  else (getline nl s).1 :: processLines nl (getline nl s).2.1
termination_by s.length
decreasing_by exact getline_rest_length nl s (by simpa using h)

/-- The build loop (main.cpp lines 131-150): every processed line is
inserted into the writer, so after close the database holds exactly the
newline-terminated lines of the input stream, in order. -/
def buildInserted (nl : α) (input : List α) : List (List α) :=
  processLines nl input

/-- The interactive loop (main.cpp lines 184-247).  Line 187 calls
db.open(opt.name) and discards its result — there is no check mirroring
build's db.fail() test at line 125 — so one retrieval is issued per
processed line regardless of whether the database was opened
successfully. -/
def interactiveRun (c : Coeff) (n : ℕ) (t : ℚ) (openOk : Bool)
    (db : List (List α)) (nl : α) (input : List α) : List (List (List α)) :=
  (processLines nl input).map (fun line => retrieve c n t line db)

/-- C6: the interactive query path does not surface a failed open: a run
whose db.open failed issues exactly the same retrievals as a successful one,
one per newline-terminated input line, instead of failing the query call. -/
theorem open_failure_ignored (c : Coeff) (n : ℕ) (t : ℚ)
    (db : List (List α)) (nl : α) (input : List α) :
    interactiveRun c n t false db nl input = interactiveRun c n t true db nl input ∧
      (interactiveRun c n t false db nl input).length =
        (processLines nl input).length := by
  exact ⟨rfl, by simp [interactiveRun]⟩

theorem getline_no_delim (nl : α) (tr : List α) (h : nl ∉ tr) :
    getline nl tr = (tr, [], true) := by
  induction tr with
  | nil => rfl
  | cons c r ih =>
    have hc : ¬c = nl := by
      intro he
      subst he
      exact h (List.mem_cons_self c r)
    have hr : nl ∉ r := fun hm => h (List.mem_cons_of_mem c hm)
    simp [getline, hc, ih hr]

theorem getline_of_line (nl : α) (l rest : List α) (h : nl ∉ l) :
    getline nl (l ++ nl :: rest) = (l, rest, false) := by
  induction l with
  | nil => simp [getline]
  | cons c r ih =>
    have hc : ¬c = nl := by
      intro he
      subst he
      exact h (List.mem_cons_self c r)
    have hr : nl ∉ r := fun hm => h (List.mem_cons_of_mem c hm)
    simp [getline, hc, ih hr]

theorem processLines_nil_of_no_delim (nl : α) (tr : List α) (h : nl ∉ tr) :
    processLines nl tr = [] := by
  rw [processLines, getline_no_delim nl tr h]
  simp

theorem processLines_cons (nl : α) (l rest : List α) (h : nl ∉ l) :
    processLines nl (l ++ nl :: rest) = l :: processLines nl rest := by
  rw [processLines, getline_of_line nl l rest h]
  simp

theorem processLines_join (nl : α) (tr : List α) (htr : nl ∉ tr) :
    ∀ ls : List (List α), (∀ l ∈ ls, nl ∉ l) →
      processLines nl ((ls.map (fun l => l ++ [nl])).flatten ++ tr) = ls := by
  intro ls
  induction ls with
  | nil =>
    intro _
    simpa using processLines_nil_of_no_delim nl tr htr
  | cons l ls ih =>
    intro hls
    have h1 : nl ∉ l := hls l (List.mem_cons_self l ls)
    have h2 : ∀ x ∈ ls, nl ∉ x := fun x hx => hls x (List.mem_cons_of_mem l hx)
    have harr : (List.map (fun l => l ++ [nl]) (l :: ls)).flatten ++ tr =
        l ++ nl :: ((List.map (fun l => l ++ [nl]) ls).flatten ++ tr) := by
      simp
    rw [harr, processLines_cons nl l _ h1, ih h2]

/-- C10: in both the build loop and the interactive loop, every
newline-terminated line — empty lines included — is processed in order,
while a final line ending at end-of-stream without a trailing newline is
discarded: build inserts exactly the terminated lines, and interactive
issues exactly one retrieval per terminated line. -/
theorem loops_process_terminated_lines (nl : α) (ls : List (List α)) (tr : List α)
    (hls : ∀ l ∈ ls, nl ∉ l) (htr : nl ∉ tr) :
    buildInserted nl ((ls.map (fun l => l ++ [nl])).flatten ++ tr) = ls ∧
      ∀ (c : Coeff) (n : ℕ) (t : ℚ) (openOk : Bool) (db : List (List α)),
        interactiveRun c n t openOk db nl ((ls.map (fun l => l ++ [nl])).flatten ++ tr) =
          ls.map (fun line => retrieve c n t line db) := by
  have key := processLines_join nl tr htr ls hls
  exact ⟨key, fun c n t openOk db => by rw [interactiveRun, key]⟩

/-- Witness for C10 over the alphabet ℕ with delimiter 10: the stream
"1·10·10·2·10·5" (two terminated lines "1" and "", then "2" terminated, then
an unterminated trailer "5") yields the three terminated lines. -/
theorem loops_process_terminated_lines_witness :
    (∀ l ∈ [[1], [], [2]], (10 : ℕ) ∉ l) ∧ (10 : ℕ) ∉ [5] ∧
      (buildInserted 10 (([[1], [], [2]].map (fun l => l ++ [10])).flatten ++ [5]) = [[1], [], [2]] ∧
        ∀ (c : Coeff) (n : ℕ) (t : ℚ) (openOk : Bool) (db : List (List ℕ)),
          interactiveRun c n t openOk db 10 (([[1], [], [2]].map (fun l => l ++ [10])).flatten ++ [5]) =
            [[1], [], [2]].map (fun line => retrieve c n t line db)) :=
  ⟨by decide, by decide,
    loops_process_terminated_lines 10 [[1], [], [2]] [5] (by decide) (by decide)⟩

/-- C8 counterexample: with configured n-gram length 1 the empty string
yields L + n - 1 = 0 n-grams, so the returned multiset is empty, not
non-empty as claimed for every configured length. -/
theorem ngrams_empty_unigram : Multiset.card (ngrams 1 ([] : List ℕ)) = 0 := rfl

/-- C8 amended: for every positive n-gram length n, a string of length L
yields exactly L + n - 1 n-grams once boundary markers are prepended and
appended; whenever n ≥ 2 the multiset is non-empty — in particular for the
empty string, whose n-grams are derived from boundary markers alone. -/
theorem ngrams_card_and_nonempty (n : ℕ) (s : List α) (hn : 1 ≤ n) :
    Multiset.card (ngrams n s) = s.length + n - 1 ∧
      (2 ≤ n → Multiset.card (ngrams n s) ≠ 0) := by
  refine ⟨ngrams_card_eq n hn s, fun h2 => ?_⟩
  rw [ngrams_card_eq n hn s]
  omega

/-- Witness for C8 at n = 3 and the empty string over ℕ: two trigrams,
both made of boundary markers. -/
theorem ngrams_card_and_nonempty_witness :
    1 ≤ 3 ∧
      (Multiset.card (ngrams 3 ([] : List ℕ)) = 2 ∧
        (2 ≤ 3 → Multiset.card (ngrams 3 ([] : List ℕ)) ≠ 0)) :=
  ⟨by decide, ngrams_card_and_nonempty 3 ([] : List ℕ) (by decide)⟩

end Simstring
